import Mathlib

/-!
Verification of the QuantifyMe core against its specification.

The development shallowly embeds the two core components:

* the score engine (`app/services/score_engine.py`): pure arithmetic on
  daily inputs, modelled over `ℚ` (Python floats are modelled as exact
  rationals; Python's `round` is banker's rounding, modelled exactly by
  `roundHalfEven`);
* the record store (`app/persistence/repositories/records_repo.py` over
  the table of `app/persistence/models.py`): modelled as explicit state
  passing over a list of rows, with the sequential semantics of the
  SQLAlchemy session (check-then-write inside one transaction).
-/

namespace QuantifyMe

/-! ### Score engine: constants and data (score_engine.py lines 9-36) -/

def MIN_SCALE : ℚ := 0
def MAX_SCALE : ℚ := 10
def MAX_SLEEP_HOURS : ℚ := 14

/-- Python dicts with unique keys are modelled as association lists;
theorems about caller-supplied weights carry a `Nodup` hypothesis on the
keys where dict semantics matters. -/
abbrev Weights := List (String × ℚ)

/-- score_engine.py lines 14-19. -/
def DEFAULT_WEIGHTS : Weights :=
  [("concentration", 2), ("humeur", 1), ("sommeil", 1), ("stress", -1)]

/-- `DailyInput` dataclass (score_engine.py lines 22-28); the spec calls the
fields mood / sleepHours / stress / focus. -/
structure DailyInput where
  humeur : ℚ
  sommeil : ℚ
  stress : ℚ
  concentration : ℚ
deriving DecidableEq, Repr

/-- `ScoreResult` dataclass (score_engine.py lines 31-36). -/
structure ScoreResult where
  scj : ℚ
  raw : ℚ
  weights : Weights
deriving DecidableEq, Repr

/-- One entry of the message of an `InputValidationError`: the Python code
formats the string `f"{name} hors bornes: {v} (attendu {lo}..{hi})"`; we keep
the structured content (field name, offending value, expected bounds). -/
structure Violation where
  name : String
  value : ℚ
  lo : ℚ
  hi : ℚ
deriving DecidableEq, Repr

/-- `_clamp` (score_engine.py lines 43-44): `max(low, min(high, value))`. -/
def _clamp (value low high : ℚ) : ℚ := max low (min high value)

/-- The inner `_check` of `validate_input` (score_engine.py lines 51-53):
appends one violation when `not (lo <= v <= hi)`. -/
def _check (name : String) (v lo hi : ℚ) : List Violation :=
  if ¬ (lo ≤ v ∧ v ≤ hi) then [⟨name, v, lo, hi⟩] else []

/-- `validate_input` (score_engine.py lines 47-61): returns the list of
violations, in source order; the Python code raises `InputValidationError`
joining them when the list is nonempty. -/
def validate_input (d : DailyInput) : List Violation :=
  _check "humeur" d.humeur MIN_SCALE MAX_SCALE
    ++ _check "stress" d.stress MIN_SCALE MAX_SCALE
    ++ _check "concentration" d.concentration MIN_SCALE MAX_SCALE
    ++ _check "sommeil (heures)" d.sommeil 0 MAX_SLEEP_HOURS

/-- Round to the nearest integer, ties to even: the rounding mode of
Python's builtin `round`. -/
def roundHalfEven (q : ℚ) : ℤ :=
  if Int.fract q < 1 / 2 then ⌊q⌋
  else if 1 / 2 < Int.fract q then ⌊q⌋ + 1
  else if ⌊q⌋ % 2 = 0 then ⌊q⌋ else ⌊q⌋ + 1

/-- Python `round(x, ndigits)`: nearest multiple of `10 ^ (-ndigits)`,
ties to even. -/
def pyRound (x : ℚ) (ndigits : ℤ) : ℚ :=
  (roundHalfEven (x * 10 ^ ndigits) : ℚ) / 10 ^ ndigits

/-- `w.get(k, 0.0)` on the weights dict (score_engine.py lines 95-98). -/
def wget (w : Weights) (k : String) : ℚ := (w.lookup k).getD 0

/-- `sum(abs(x) for x in w.values())` (score_engine.py line 102). -/
def absSum (w : Weights) : ℚ := (w.map (fun p => |p.2|)).sum

/-- `compute_scj` (score_engine.py lines 64-110).  Raising
`InputValidationError` is modelled by `Except.error` carrying the list of
violations.  The Python defaults are `weights=None`, `rounding=2`,
`clamp_output=True`; callers here pass all arguments explicitly. -/
def compute_scj (d : DailyInput) (weights : Option Weights) (rounding : ℤ)
    (clamp_output : Bool) : Except (List Violation) ScoreResult :=
  let errs := validate_input d
  if errs ≠ [] then .error errs else
  let w := weights.getD DEFAULT_WEIGHTS
  let numerator := wget w "concentration" * d.concentration
    + wget w "humeur" * d.humeur
    + wget w "sommeil" * d.sommeil
    + wget w "stress" * d.stress
  let s := absSum w
  let denom := if s = 0 then 1 else s
  let raw_score := numerator / denom
  let final := if clamp_output then _clamp raw_score MIN_SCALE MAX_SCALE else raw_score
  .ok ⟨pyRound final rounding, raw_score, w⟩

/-! ### Score engine: basic lemmas -/

theorem _check_eq_nil_iff (name : String) (v lo hi : ℚ) :
    _check name v lo hi = [] ↔ (lo ≤ v ∧ v ≤ hi) := by
  simp [_check]

theorem validate_input_eq_nil_iff (d : DailyInput) :
    validate_input d = [] ↔
      (MIN_SCALE ≤ d.humeur ∧ d.humeur ≤ MAX_SCALE) ∧
      (MIN_SCALE ≤ d.stress ∧ d.stress ≤ MAX_SCALE) ∧
      (MIN_SCALE ≤ d.concentration ∧ d.concentration ≤ MAX_SCALE) ∧
      (0 ≤ d.sommeil ∧ d.sommeil ≤ MAX_SLEEP_HOURS) := by
  simp [validate_input, List.append_eq_nil, _check_eq_nil_iff]

theorem compute_scj_ok_eq (d : DailyInput) (weights : Option Weights) (rounding : ℤ)
    (c : Bool) (hv : validate_input d = []) :
    compute_scj d weights rounding c =
      .ok ⟨pyRound
            (if c then
              _clamp ((wget (weights.getD DEFAULT_WEIGHTS) "concentration" * d.concentration
                  + wget (weights.getD DEFAULT_WEIGHTS) "humeur" * d.humeur
                  + wget (weights.getD DEFAULT_WEIGHTS) "sommeil" * d.sommeil
                  + wget (weights.getD DEFAULT_WEIGHTS) "stress" * d.stress)
                / (if absSum (weights.getD DEFAULT_WEIGHTS) = 0 then 1
                   else absSum (weights.getD DEFAULT_WEIGHTS))) MIN_SCALE MAX_SCALE
             else
              (wget (weights.getD DEFAULT_WEIGHTS) "concentration" * d.concentration
                  + wget (weights.getD DEFAULT_WEIGHTS) "humeur" * d.humeur
                  + wget (weights.getD DEFAULT_WEIGHTS) "sommeil" * d.sommeil
                  + wget (weights.getD DEFAULT_WEIGHTS) "stress" * d.stress)
                / (if absSum (weights.getD DEFAULT_WEIGHTS) = 0 then 1
                   else absSum (weights.getD DEFAULT_WEIGHTS))) rounding,
          (wget (weights.getD DEFAULT_WEIGHTS) "concentration" * d.concentration
              + wget (weights.getD DEFAULT_WEIGHTS) "humeur" * d.humeur
              + wget (weights.getD DEFAULT_WEIGHTS) "sommeil" * d.sommeil
              + wget (weights.getD DEFAULT_WEIGHTS) "stress" * d.stress)
            / (if absSum (weights.getD DEFAULT_WEIGHTS) = 0 then 1
               else absSum (weights.getD DEFAULT_WEIGHTS)),
          weights.getD DEFAULT_WEIGHTS⟩ := by
  simp [compute_scj, hv]

theorem wget_default_concentration : wget DEFAULT_WEIGHTS "concentration" = 2 := by
  rfl

theorem wget_default_humeur : wget DEFAULT_WEIGHTS "humeur" = 1 := by
  rfl

theorem wget_default_sommeil : wget DEFAULT_WEIGHTS "sommeil" = 1 := by
  rfl

theorem wget_default_stress : wget DEFAULT_WEIGHTS "stress" = -1 := by
  rfl

theorem absSum_default : absSum DEFAULT_WEIGHTS = 5 := by
  norm_num [absSum, DEFAULT_WEIGHTS]

/-- With the default weight set, `compute_scj` at its Python default arguments
reduces to the documented closed formula `(2c + h + s - st) / 5`. -/
theorem compute_scj_default_eq (d : DailyInput) (hv : validate_input d = []) :
    compute_scj d none 2 true =
      .ok ⟨pyRound
            (_clamp ((2 * d.concentration + d.humeur + d.sommeil - d.stress) / 5)
              MIN_SCALE MAX_SCALE) 2,
          (2 * d.concentration + d.humeur + d.sommeil - d.stress) / 5,
          DEFAULT_WEIGHTS⟩ := by
  rw [compute_scj_ok_eq d none 2 true hv]
  simp only [Option.getD, wget_default_concentration, wget_default_humeur,
    wget_default_sommeil, wget_default_stress, absSum_default]
  norm_num
  rw [sub_eq_add_neg]
  exact ⟨rfl, rfl⟩

/-! ### Rounding and clamping: order lemmas -/

theorem le_roundHalfEven (q : ℚ) : ⌊q⌋ ≤ roundHalfEven q := by
  unfold roundHalfEven; split_ifs <;> omega

theorem roundHalfEven_le (q : ℚ) : roundHalfEven q ≤ ⌊q⌋ + 1 := by
  unfold roundHalfEven; split_ifs <;> omega

theorem roundHalfEven_mono {q r : ℚ} (h : q ≤ r) :
    roundHalfEven q ≤ roundHalfEven r := by
  have hle : ⌊q⌋ ≤ ⌊r⌋ := Int.floor_le_floor h
  rcases lt_or_eq_of_le hle with hlt | heq
  · calc roundHalfEven q ≤ ⌊q⌋ + 1 := roundHalfEven_le q
      _ ≤ ⌊r⌋ := hlt
      _ ≤ roundHalfEven r := le_roundHalfEven r
  · have hfr : Int.fract q ≤ Int.fract r := by
      simp only [Int.fract]
      rw [heq]
      linarith
    unfold roundHalfEven
    rw [heq]
    split_ifs <;> first | rfl | omega | linarith

theorem pyRound_mono {x y : ℚ} (n : ℤ) (h : x ≤ y) : pyRound x n ≤ pyRound y n := by
  unfold pyRound
  have hp : (0 : ℚ) < 10 ^ n := by positivity
  have h1 : x * 10 ^ n ≤ y * 10 ^ n := mul_le_mul_of_nonneg_right h (le_of_lt hp)
  have h2 : ((roundHalfEven (x * 10 ^ n) : ℤ) : ℚ) ≤ ((roundHalfEven (y * 10 ^ n) : ℤ) : ℚ) := by
    exact_mod_cast roundHalfEven_mono h1
  exact (div_le_div_iff_of_pos_right hp).mpr h2

theorem _clamp_mono {x y lo hi : ℚ} (h : x ≤ y) : _clamp x lo hi ≤ _clamp y lo hi :=
  max_le_max (le_refl lo) (min_le_min (le_refl hi) h)

/-! ### Weight mappings: zero weights and unrecognized keys -/

theorem absSum_cons (p : String × ℚ) (t : Weights) : absSum (p :: t) = |p.2| + absSum t := by
  simp [absSum]

theorem absSum_nonneg (w : Weights) : 0 ≤ absSum w := by
  induction w with
  | nil => simp [absSum]
  | cons p t ih =>
    rw [absSum_cons]
    have := abs_nonneg p.2
    linarith

theorem absSum_eq_zero_iff (w : Weights) : absSum w = 0 ↔ ∀ p ∈ w, p.2 = 0 := by
  induction w with
  | nil => simp [absSum]
  | cons p t ih =>
    rw [absSum_cons]
    constructor
    · intro h
      have h1 := abs_nonneg p.2
      have h2 := absSum_nonneg t
      have hp : |p.2| = 0 := by linarith
      have ht : absSum t = 0 := by linarith
      intro q hq
      rcases List.mem_cons.mp hq with rfl | hq'
      · exact abs_eq_zero.mp hp
      · exact (ih.mp ht) q hq'
    · intro h
      have hp : p.2 = 0 := h p (List.mem_cons_self p t)
      have ht : absSum t = 0 := ih.mpr fun q hq => h q (List.mem_cons_of_mem p hq)
      simp [hp, ht]

theorem wget_eq_zero_of_all_zero {w : Weights} (h : ∀ p ∈ w, p.2 = 0) (k : String) :
    wget w k = 0 := by
  induction w with
  | nil => rfl
  | cons p t ih =>
    cases hbeq : (k == p.1) with
    | true =>
        simp only [wget, List.lookup, hbeq, Option.getD_some]
        exact h p (List.mem_cons_self p t)
    | false =>
        simp only [wget, List.lookup, hbeq] at ih ⊢
        exact ih fun q hq => h q (List.mem_cons_of_mem p hq)

theorem wget_append_ne (w : Weights) (k name : String) (v : ℚ) (h : name ≠ k) :
    wget (w ++ [(k, v)]) name = wget w name := by
  induction w with
  | nil =>
    have hb : (name == k) = false := beq_eq_false_iff_ne.mpr h
    simp [wget, List.lookup, hb]
  | cons p t ih =>
    cases hbeq : (name == p.1) with
    | true => simp only [wget, List.cons_append, List.lookup, hbeq, Option.getD_some]
    | false => simpa only [wget, List.cons_append, List.lookup, hbeq] using ih

theorem absSum_append_single (w : Weights) (k : String) (v : ℚ) :
    absSum (w ++ [(k, v)]) = absSum w + |v| := by
  simp [absSum]

/-- The `numerator` expression of `compute_scj` (score_engine.py lines 94-99),
named for use in statements; it agrees with `compute_scj` definitionally. -/
def numeratorOf (d : DailyInput) (w : Weights) : ℚ :=
  wget w "concentration" * d.concentration + wget w "humeur" * d.humeur
    + wget w "sommeil" * d.sommeil + wget w "stress" * d.stress

/-! ### Claim theorems for the score engine -/

/-- Claim C1, counterexample to the end-to-end instance: on metrics
(mood 7, sleepHours 6.5, stress 3, focus 7.5) with the default weights the
code returns rawScore = score = 5.1, and 5.1 ≠ 5.0 as the claim states. -/
theorem C1_end_to_end_counterexample :
    compute_scj ⟨7, 13/2, 3, 15/2⟩ none 2 true
        = .ok ⟨51/10, 51/10, DEFAULT_WEIGHTS⟩
      ∧ (51 : ℚ)/10 ≠ 5 := by
  constructor
  · rw [compute_scj_default_eq ⟨7, 13/2, 3, 15/2⟩ (by
      rw [validate_input_eq_nil_iff]
      norm_num [MIN_SCALE, MAX_SCALE, MAX_SLEEP_HOURS])]
    norm_num [_clamp, pyRound, roundHalfEven, Int.fract, MIN_SCALE, MAX_SCALE,
      min_def, max_def]
  · norm_num

/-- Claim C1 (amended): for every validated input and weight mapping,
rawScore is the four-field weighted sum over the mapping's `get`(default 0),
divided by the sum of absolute values of the mapping's entries, the
denominator replaced by 1 when every weight is zero (result then 0), and
score is the clamped-then-rounded value while rawScore stays pre-clamp and
pre-rounding; the concrete instance (mood 7, sleepHours 6.5, stress 3,
focus 7.5) with default weights yields rawScore = score = 5.1 (the spec's
stated 5.0 miscomputes its own formula). -/
theorem C1_score_formula (d : DailyInput) (w : Weights) (rounding : ℤ) (c : Bool)
    (hv : validate_input d = []) :
    (∃ res : ScoreResult,
      compute_scj d (some w) rounding c = .ok res ∧
      res.raw = numeratorOf d w / (if absSum w = 0 then 1 else absSum w) ∧
      (absSum w = 0 ↔ ∀ p ∈ w, p.2 = 0) ∧
      ((∀ p ∈ w, p.2 = 0) → res.raw = 0) ∧
      res.scj = pyRound (if c then _clamp res.raw MIN_SCALE MAX_SCALE else res.raw) rounding) ∧
    compute_scj ⟨7, 13/2, 3, 15/2⟩ none 2 true = .ok ⟨51/10, 51/10, DEFAULT_WEIGHTS⟩ := by
  constructor
  · refine ⟨_, compute_scj_ok_eq d (some w) rounding c hv, rfl, absSum_eq_zero_iff w, ?_, rfl⟩
    intro hz
    have h0 : absSum w = 0 := (absSum_eq_zero_iff w).mpr hz
    show numeratorOf d w / (if absSum w = 0 then 1 else absSum w) = 0
    simp [numeratorOf, wget_eq_zero_of_all_zero hz, h0]
  · exact C1_end_to_end_counterexample.1

theorem C1_score_formula_witness :
    ∃ res : ScoreResult,
      compute_scj ⟨5, 5, 5, 5⟩ (some DEFAULT_WEIGHTS) 2 true = .ok res ∧
      res.raw = numeratorOf ⟨5, 5, 5, 5⟩ DEFAULT_WEIGHTS
        / (if absSum DEFAULT_WEIGHTS = 0 then 1 else absSum DEFAULT_WEIGHTS) := by
  obtain ⟨⟨res, h1, h2, -⟩, -⟩ :=
    C1_score_formula ⟨5, 5, 5, 5⟩ DEFAULT_WEIGHTS 2 true (by
      rw [validate_input_eq_nil_iff]
      norm_num [MIN_SCALE, MAX_SCALE, MAX_SLEEP_HOURS])
  exact ⟨res, h1, h2⟩

/-- Claim C5: under the default weights and with the other fields held fixed
at valid values, the returned score is monotone non-decreasing in focus
(concentration) and monotone non-increasing in stress, for valid a ≤ b. -/
theorem C5_monotonicity (h so st co a b : ℚ)
    (hh : 0 ≤ h ∧ h ≤ 10) (hso : 0 ≤ so ∧ so ≤ 14) (hst : 0 ≤ st ∧ st ≤ 10)
    (hco : 0 ≤ co ∧ co ≤ 10) (ha : 0 ≤ a ∧ a ≤ 10) (hb : 0 ≤ b ∧ b ≤ 10)
    (hab : a ≤ b) :
    (∃ ra rb : ScoreResult,
      compute_scj ⟨h, so, st, a⟩ none 2 true = .ok ra ∧
      compute_scj ⟨h, so, st, b⟩ none 2 true = .ok rb ∧
      ra.scj ≤ rb.scj) ∧
    (∃ sa sb : ScoreResult,
      compute_scj ⟨h, so, a, co⟩ none 2 true = .ok sa ∧
      compute_scj ⟨h, so, b, co⟩ none 2 true = .ok sb ∧
      sb.scj ≤ sa.scj) := by
  have hva : validate_input ⟨h, so, st, a⟩ = [] := by
    rw [validate_input_eq_nil_iff]
    simp only [MIN_SCALE, MAX_SCALE, MAX_SLEEP_HOURS]
    exact ⟨hh, hst, ha, hso⟩
  have hvb : validate_input ⟨h, so, st, b⟩ = [] := by
    rw [validate_input_eq_nil_iff]
    simp only [MIN_SCALE, MAX_SCALE, MAX_SLEEP_HOURS]
    exact ⟨hh, hst, hb, hso⟩
  have hva2 : validate_input ⟨h, so, a, co⟩ = [] := by
    rw [validate_input_eq_nil_iff]
    simp only [MIN_SCALE, MAX_SCALE, MAX_SLEEP_HOURS]
    exact ⟨hh, ha, hco, hso⟩
  have hvb2 : validate_input ⟨h, so, b, co⟩ = [] := by
    rw [validate_input_eq_nil_iff]
    simp only [MIN_SCALE, MAX_SCALE, MAX_SLEEP_HOURS]
    exact ⟨hh, hb, hco, hso⟩
  constructor
  · refine ⟨_, _, compute_scj_default_eq _ hva, compute_scj_default_eq _ hvb, ?_⟩
    show pyRound (_clamp ((2 * a + h + so - st) / 5) MIN_SCALE MAX_SCALE) 2
        ≤ pyRound (_clamp ((2 * b + h + so - st) / 5) MIN_SCALE MAX_SCALE) 2
    apply pyRound_mono
    apply _clamp_mono
    linarith
  · refine ⟨_, _, compute_scj_default_eq _ hva2, compute_scj_default_eq _ hvb2, ?_⟩
    show pyRound (_clamp ((2 * co + h + so - b) / 5) MIN_SCALE MAX_SCALE) 2
        ≤ pyRound (_clamp ((2 * co + h + so - a) / 5) MIN_SCALE MAX_SCALE) 2
    apply pyRound_mono
    apply _clamp_mono
    linarith

theorem C5_monotonicity_witness :
    ∃ ra rb : ScoreResult,
      compute_scj ⟨6, 7, 4, 5⟩ none 2 true = .ok ra ∧
      compute_scj ⟨6, 7, 4, 7⟩ none 2 true = .ok rb ∧
      ra.scj ≤ rb.scj := by
  obtain ⟨hfocus, -⟩ :=
    C5_monotonicity 6 7 4 4 5 7 (by norm_num) (by norm_num) (by norm_num)
      (by norm_num) (by norm_num) (by norm_num) (by norm_num)
  exact hfocus

/-- Claim C6: when one or more fields are out of domain, `compute_scj` fails
with the validation error and that error enumerates every out-of-domain
field — each violating field appears in the list tagged with its name, the
offending value and the expected bounds — and validation succeeds exactly
when all four fields are in their domains. -/
theorem C6_validation_enumerates_all (d : DailyInput) (weights : Option Weights)
    (rounding : ℤ) (c : Bool) :
    (validate_input d ≠ [] →
      compute_scj d weights rounding c = .error (validate_input d)) ∧
    (¬ (MIN_SCALE ≤ d.humeur ∧ d.humeur ≤ MAX_SCALE) →
      (⟨"humeur", d.humeur, MIN_SCALE, MAX_SCALE⟩ : Violation) ∈ validate_input d) ∧
    (¬ (MIN_SCALE ≤ d.stress ∧ d.stress ≤ MAX_SCALE) →
      (⟨"stress", d.stress, MIN_SCALE, MAX_SCALE⟩ : Violation) ∈ validate_input d) ∧
    (¬ (MIN_SCALE ≤ d.concentration ∧ d.concentration ≤ MAX_SCALE) →
      (⟨"concentration", d.concentration, MIN_SCALE, MAX_SCALE⟩ : Violation)
        ∈ validate_input d) ∧
    (¬ (0 ≤ d.sommeil ∧ d.sommeil ≤ MAX_SLEEP_HOURS) →
      (⟨"sommeil (heures)", d.sommeil, 0, MAX_SLEEP_HOURS⟩ : Violation)
        ∈ validate_input d) ∧
    (validate_input d = [] ↔
      (MIN_SCALE ≤ d.humeur ∧ d.humeur ≤ MAX_SCALE) ∧
      (MIN_SCALE ≤ d.stress ∧ d.stress ≤ MAX_SCALE) ∧
      (MIN_SCALE ≤ d.concentration ∧ d.concentration ≤ MAX_SCALE) ∧
      (0 ≤ d.sommeil ∧ d.sommeil ≤ MAX_SLEEP_HOURS)) := by
  refine ⟨?_, ?_, ?_, ?_, ?_, validate_input_eq_nil_iff d⟩
  · intro hne
    simp [compute_scj, hne]
  · intro hbad
    simp [validate_input, _check, hbad]
  · intro hbad
    simp [validate_input, _check, hbad]
  · intro hbad
    simp [validate_input, _check, hbad]
  · intro hbad
    simp [validate_input, _check, hbad]

/-- Claim C10: metric names absent from the mapping contribute weight 0 to
the numerator, while the denominator sums |value| over exactly the entries
present in the mapping — including entries under unrecognized keys — so a
misspelled weight contributes nothing to the numerator but enlarges the
denominator. -/
theorem C10_unrecognized_keys (d : DailyInput) (w : Weights) (k : String) (v : ℚ)
    (rounding : ℤ) (c : Bool) (hv : validate_input d = [])
    (hk : k ∉ ["concentration", "humeur", "sommeil", "stress"]) :
    (∀ name : String, w.lookup name = none → wget w name = 0) ∧
    (∃ res : ScoreResult,
      compute_scj d (some w) rounding c = .ok res ∧
      res.raw = numeratorOf d w / (if absSum w = 0 then 1 else absSum w)) ∧
    numeratorOf d (w ++ [(k, v)]) = numeratorOf d w ∧
    absSum (w ++ [(k, v)]) = absSum w + |v| := by
  have hkc : "concentration" ≠ k := fun heq => hk (by rw [← heq]; simp)
  have hkh : "humeur" ≠ k := fun heq => hk (by rw [← heq]; simp)
  have hks : "sommeil" ≠ k := fun heq => hk (by rw [← heq]; simp)
  have hkt : "stress" ≠ k := fun heq => hk (by rw [← heq]; simp)
  refine ⟨?_, ⟨_, compute_scj_ok_eq d (some w) rounding c hv, rfl⟩, ?_, absSum_append_single w k v⟩
  · intro name hn
    simp [wget, hn]
  · simp only [numeratorOf, wget_append_ne w k _ v hkc, wget_append_ne w k _ v hkh,
      wget_append_ne w k _ v hks, wget_append_ne w k _ v hkt]

theorem C10_unrecognized_keys_witness :
    numeratorOf ⟨5, 5, 5, 5⟩ (DEFAULT_WEIGHTS ++ [("concentratoin", 3)])
        = numeratorOf ⟨5, 5, 5, 5⟩ DEFAULT_WEIGHTS ∧
    absSum (DEFAULT_WEIGHTS ++ [("concentratoin", 3)]) = absSum DEFAULT_WEIGHTS + |(3 : ℚ)| := by
  obtain ⟨-, -, hnum, hden⟩ :=
    C10_unrecognized_keys ⟨5, 5, 5, 5⟩ DEFAULT_WEIGHTS "concentratoin" 3 2 true
      (by rw [validate_input_eq_nil_iff]; norm_num [MIN_SCALE, MAX_SCALE, MAX_SLEEP_HOURS])
      (by simp)
  exact ⟨hnum, hden⟩

/-! ### Record store: data model

`models.py` lines 20-37 (`Record`) and `records_repo.py`.  Calendar days are
modelled as `ℤ` (a day count); `datetime.date` values are totally ordered and
support `- timedelta(days=n)`, which is all the code uses.  `id` columns are
SQLite autoincrement keys starting at 1. -/

/-- Argument accepted by `_normalize_date` (records_repo.py lines 8-15):
a `datetime.date`, a `datetime.datetime` (time discarded), or a valid
ISO-8601 date string, represented here by the day it parses to.  The
`TypeError` branch for other types is outside every claim and not modelled. -/
inductive DateInput
  | day (d : ℤ)
  | datetime (d : ℤ) (sec : ℕ)
  | iso (d : ℤ)
deriving DecidableEq, Repr

/-- `_normalize_date` (records_repo.py lines 8-15). -/
def normalizeDate : DateInput → ℤ
  | .day d => d
  | .datetime d _ => d
  | .iso d => d

/-- One row of the `records` table (models.py lines 20-37); `interp` models
the nullable `interpretation` column. -/
structure Record where
  id : ℕ
  user_id : ℤ
  date : ℤ
  humeur : ℚ
  sommeil : ℚ
  stress : ℚ
  concentration : ℚ
  scj : ℚ
  interp : Option String
  created_at : ℕ
deriving DecidableEq, Repr

/-- The `**fields` keyword mapping passed to `add`/`upsert`: a partial
assignment of the mutable columns (the four metrics, the score, and the
nullable `interpretation` text, whose entry may itself set the column to
NULL).  `id`, `user_id`, `date` and `created_at` are not part of the
mapping, matching the spec's operation signatures. -/
structure Fields where
  humeur : Option ℚ
  sommeil : Option ℚ
  stress : Option ℚ
  concentration : Option ℚ
  scj : Option ℚ
  interp : Option (Option String)
deriving DecidableEq, Repr

/-- The `for k, v in fields.items(): setattr(rec, k, v)` loop of `upsert`
(records_repo.py lines 33-34): assign exactly the columns present in the
mapping. -/
def applyFields (f : Fields) (r : Record) : Record :=
  { r with
    humeur := f.humeur.getD r.humeur
    sommeil := f.sommeil.getD r.sommeil
    stress := f.stress.getD r.stress
    concentration := f.concentration.getD r.concentration
    scj := f.scj.getD r.scj
    interp := f.interp.getD r.interp }

/-- All NOT NULL mutable columns present: `Record(user_id=…, date=…, **fields)`
flushes successfully exactly when the five non-nullable metric/score columns
are supplied (`interpretation` is nullable and defaults to NULL,
`created_at` defaults to the insertion time). -/
def Fields.complete (f : Fields) : Prop :=
  f.humeur.isSome = true ∧ f.sommeil.isSome = true ∧ f.stress.isSome = true
    ∧ f.concentration.isSome = true ∧ f.scj.isSome = true

instance (f : Fields) : Decidable f.complete := by
  unfold Fields.complete
  infer_instance

/-- `Record(user_id=…, date=…, **fields)` followed by `flush` : `none` models
the IntegrityError raised when a NOT NULL column is missing. -/
def mkRecord (id : ℕ) (uid day : ℤ) (f : Fields) (now : ℕ) : Option Record :=
  match f.humeur, f.sommeil, f.stress, f.concentration, f.scj with
  | some h, some so, some stq, some co, some sc =>
      some ⟨id, uid, day, h, so, stq, co, sc, f.interp.getD none, now⟩
  | _, _, _, _, _ => none

/-- The store state: the `records` table plus the autoincrement counter and
the insertion clock used for `created_at` defaults. -/
structure Store where
  rows : List Record
  next_id : ℕ
  clock : ℕ
deriving DecidableEq, Repr

def Store.empty : Store := ⟨[], 1, 0⟩

/-- The WHERE clause `Record.user_id == user_id AND Record.date == day`. -/
def keyMatch (uid day : ℤ) (r : Record) : Bool :=
  r.user_id == uid && r.date == day

/-- Replace the first element satisfying `p` (the single ORM object the
session mutates in place). -/
def replaceFirst (p : Record → Bool) (r : Record) : List Record → List Record
  | [] => []
  | x :: xs => if p x then r :: xs else x :: replaceFirst p r xs

/-- Errors surfaced by the repository: `dup` models the
`ValueError(f"Record déjà présent pour {day}")` raised by `add` (the spec's
DuplicateError class), `storage` a constraint violation at flush. -/
inductive RepoError
  | dup
  | storage
deriving DecidableEq, Repr

/-- `RecordRepository.add` (records_repo.py lines 18-26).  The result of the
call is paired with the post-call store; on an error the session rolls back
and the store is unchanged.  (`if exists:` tests the found id's truthiness;
ids here start at 1, so the test is equivalent to the row's existence.) -/
def Store.add (st : Store) (uid : ℤ) (date : DateInput) (f : Fields) :
    Except RepoError Record × Store :=
  let day := normalizeDate date
  if st.rows.any (keyMatch uid day) then
    (.error .dup, st)
  else
    match mkRecord st.next_id uid day f st.clock with
    | none => (.error .storage, st)
    | some r => (.ok r, ⟨st.rows ++ [r], st.next_id + 1, st.clock⟩)

/-- `RecordRepository.upsert` (records_repo.py lines 28-39): update the
matching row in place when one exists, otherwise insert a new one. -/
def Store.upsert (st : Store) (uid : ℤ) (date : DateInput) (f : Fields) :
    Except RepoError Record × Store :=
  let day := normalizeDate date
  match st.rows.find? (keyMatch uid day) with
  | some rec =>
      let r := applyFields f rec
      (.ok r, ⟨replaceFirst (keyMatch uid day) r st.rows, st.next_id, st.clock⟩)
  | none =>
      match mkRecord st.next_id uid day f st.clock with
      | none => (.error .storage, st)
      | some r => (.ok r, ⟨st.rows ++ [r], st.next_id + 1, st.clock⟩)

/-- `RecordRepository.delete` (records_repo.py lines 62-69). -/
def Store.delete (st : Store) (uid : ℤ) (date : DateInput) : Bool × Store :=
  let day := normalizeDate date
  match st.rows.find? (keyMatch uid day) with
  | none => (false, st)
  | some _ => (true, ⟨st.rows.eraseP (keyMatch uid day), st.next_id, st.clock⟩)

/-- The ORDER BY comparator of `get_range`:
`Record.date.asc() if asc else Record.date.desc()`. -/
def dateLe (asc : Bool) (a b : Record) : Bool :=
  if asc then decide (a.date ≤ b.date) else decide (b.date ≤ a.date)

/-- `RecordRepository.get_range` (records_repo.py lines 41-52): filter by
user and the optional inclusive bounds, then ORDER BY date (ascending or
descending per the flag; the SQL engine scans rows in storage order, so the
sort is stable). -/
def Store.get_range (st : Store) (uid : ℤ) (start end_ : Option DateInput)
    (asc : Bool) : List Record :=
  let base := st.rows.filter (fun r => r.user_id == uid)
  let f1 := match start with
    | none => base
    | some s0 => base.filter (fun r => decide (normalizeDate s0 ≤ r.date))
  let f2 := match end_ with
    | none => f1
    | some e0 => f1.filter (fun r => decide (r.date ≤ normalizeDate e0))
  f2.mergeSort (dateLe asc)

/-- `RecordRepository.weekly_avg` (records_repo.py lines 77-84): SQL `AVG`
of `scj` over the rows of the inclusive window `[end - 6, end]`, `NULL`
(here `none`) when no row matches; `end_date=None` defaults to today. -/
def Store.weekly_avg (st : Store) (uid : ℤ) (end_date : Option DateInput)
    (today : ℤ) : Option ℚ :=
  let e := match end_date with
    | some d0 => normalizeDate d0
    | none => today
  let start := e - 6
  let sel := st.rows.filter (fun r =>
    r.user_id == uid && decide (start ≤ r.date) && decide (r.date ≤ e))
  if sel.isEmpty then none
  else some ((sel.map Record.scj).sum / (sel.length : ℚ))

/-- One repository call, for stating properties of arbitrary call
sequences; each call's store effect is `applyOp`. -/
inductive Op
  | add (uid : ℤ) (date : DateInput) (f : Fields)
  | upsert (uid : ℤ) (date : DateInput) (f : Fields)
  | del (uid : ℤ) (date : DateInput)
deriving DecidableEq, Repr

def applyOp (st : Store) : Op → Store
  | .add uid date f => (st.add uid date f).2
  | .upsert uid date f => (st.upsert uid date f).2
  | .del uid date => (st.delete uid date).2

/-- The store reached from the empty table by a sequence of calls. -/
def run (ops : List Op) : Store := ops.foldl applyOp Store.empty

/-- The uniqueness invariant: at most one row per `(user_id, date)` pair
(models.py line 22, constraint `uq_user_day`). -/
def Store.Uniq (st : Store) : Prop :=
  st.rows.Pairwise fun a b => ¬(a.user_id = b.user_id ∧ a.date = b.date)

/-! ### Record store: invariant preservation -/

theorem keyMatch_iff {uid day : ℤ} {r : Record} :
    keyMatch uid day r = true ↔ (r.user_id = uid ∧ r.date = day) := by
  simp [keyMatch]

theorem applyFields_id (f : Fields) (r : Record) : (applyFields f r).id = r.id := rfl

theorem applyFields_user_id (f : Fields) (r : Record) :
    (applyFields f r).user_id = r.user_id := rfl

theorem applyFields_date (f : Fields) (r : Record) : (applyFields f r).date = r.date := rfl

theorem applyFields_created_at (f : Fields) (r : Record) :
    (applyFields f r).created_at = r.created_at := rfl

theorem mkRecord_keys {id : ℕ} {uid day : ℤ} {f : Fields} {now : ℕ} {r : Record}
    (h : mkRecord id uid day f now = some r) :
    r.id = id ∧ r.user_id = uid ∧ r.date = day ∧ r.created_at = now := by
  unfold mkRecord at h
  split at h
  · cases h
    exact ⟨rfl, rfl, rfl, rfl⟩
  · cases h

theorem mkRecord_complete {id : ℕ} {uid day : ℤ} {f : Fields} {now : ℕ}
    (hf : f.complete) : ∃ r, mkRecord id uid day f now = some r := by
  obtain ⟨h1, h2, h3, h4, h5⟩ := hf
  obtain ⟨vh, hh⟩ := Option.isSome_iff_exists.mp h1
  obtain ⟨vso, hso⟩ := Option.isSome_iff_exists.mp h2
  obtain ⟨vst, hst⟩ := Option.isSome_iff_exists.mp h3
  obtain ⟨vco, hco⟩ := Option.isSome_iff_exists.mp h4
  obtain ⟨vsc, hsc⟩ := Option.isSome_iff_exists.mp h5
  exact ⟨_, by rw [mkRecord, hh, hso, hst, hco, hsc]⟩

theorem mem_replaceFirst {p : Record → Bool} {r y : Record} :
    ∀ {l : List Record}, y ∈ replaceFirst p r l →
      y ∈ l ∨ (y = r ∧ ∃ z ∈ l, p z = true) := by
  intro l
  induction l with
  | nil => intro h; cases h
  | cons x xs ih =>
    intro hy
    by_cases hx : p x = true
    · rw [replaceFirst, if_pos hx] at hy
      rcases List.mem_cons.mp hy with rfl | hy'
      · exact Or.inr ⟨rfl, x, List.mem_cons_self x xs, hx⟩
      · exact Or.inl (List.mem_cons_of_mem x hy')
    · rw [replaceFirst, if_neg hx] at hy
      rcases List.mem_cons.mp hy with rfl | hy'
      · exact Or.inl (List.mem_cons_self y xs)
      · rcases ih hy' with h | ⟨rfl, z, hz, hpz⟩
        · exact Or.inl (List.mem_cons_of_mem x h)
        · exact Or.inr ⟨rfl, z, List.mem_cons_of_mem x hz, hpz⟩

theorem pairwise_replaceFirst {uid day : ℤ} {r : Record}
    (hr : r.user_id = uid ∧ r.date = day) :
    ∀ {l : List Record},
      l.Pairwise (fun a b => ¬(a.user_id = b.user_id ∧ a.date = b.date)) →
      (replaceFirst (keyMatch uid day) r l).Pairwise
        (fun a b => ¬(a.user_id = b.user_id ∧ a.date = b.date)) := by
  intro l
  induction l with
  | nil => intro _; exact List.Pairwise.nil
  | cons x xs ih =>
    intro hp
    obtain ⟨hx, hxs⟩ := List.pairwise_cons.mp hp
    by_cases hmatch : keyMatch uid day x = true
    · rw [replaceFirst, if_pos hmatch]
      obtain ⟨hxu, hxd⟩ := keyMatch_iff.mp hmatch
      refine List.pairwise_cons.mpr ⟨?_, hxs⟩
      intro y hy
      have := hx y hy
      rw [hr.1, hr.2, ← hxu, ← hxd]
      exact this
    · rw [replaceFirst, if_neg hmatch]
      refine List.pairwise_cons.mpr ⟨?_, ih hxs⟩
      intro y hy
      rcases mem_replaceFirst hy with hy' | ⟨rfl, z, hz, hpz⟩
      · exact hx y hy'
      · obtain ⟨hzu, hzd⟩ := keyMatch_iff.mp hpz
        have := hx z hz
        rw [hr.1, hr.2, ← hzu, ← hzd]
        exact this

/-! Branch equations for the three write operations. -/

theorem add_eq_dup {st : Store} {uid : ℤ} {date : DateInput} (f : Fields)
    (hex : st.rows.any (keyMatch uid (normalizeDate date)) = true) :
    st.add uid date f = (.error .dup, st) := by
  simp only [Store.add, hex, if_true]

theorem add_eq_storage {st : Store} {uid : ℤ} {date : DateInput} {f : Fields}
    (hex : st.rows.any (keyMatch uid (normalizeDate date)) = false)
    (hmk : mkRecord st.next_id uid (normalizeDate date) f st.clock = none) :
    st.add uid date f = (.error .storage, st) := by
  simp only [Store.add, hex, hmk, Bool.false_eq_true, if_false]

theorem add_eq_new {st : Store} {uid : ℤ} {date : DateInput} {f : Fields} {r : Record}
    (hex : st.rows.any (keyMatch uid (normalizeDate date)) = false)
    (hmk : mkRecord st.next_id uid (normalizeDate date) f st.clock = some r) :
    st.add uid date f = (.ok r, ⟨st.rows ++ [r], st.next_id + 1, st.clock⟩) := by
  simp only [Store.add, hex, hmk, Bool.false_eq_true, if_false]

theorem upsert_eq_update {st : Store} {uid : ℤ} {date : DateInput} (f : Fields)
    {rec : Record}
    (hfind : st.rows.find? (keyMatch uid (normalizeDate date)) = some rec) :
    st.upsert uid date f =
      (.ok (applyFields f rec),
       ⟨replaceFirst (keyMatch uid (normalizeDate date)) (applyFields f rec) st.rows,
        st.next_id, st.clock⟩) := by
  simp only [Store.upsert, hfind]

theorem upsert_eq_storage {st : Store} {uid : ℤ} {date : DateInput} {f : Fields}
    (hfind : st.rows.find? (keyMatch uid (normalizeDate date)) = none)
    (hmk : mkRecord st.next_id uid (normalizeDate date) f st.clock = none) :
    st.upsert uid date f = (.error .storage, st) := by
  simp only [Store.upsert, hfind, hmk]

theorem upsert_eq_new {st : Store} {uid : ℤ} {date : DateInput} {f : Fields} {r : Record}
    (hfind : st.rows.find? (keyMatch uid (normalizeDate date)) = none)
    (hmk : mkRecord st.next_id uid (normalizeDate date) f st.clock = some r) :
    st.upsert uid date f = (.ok r, ⟨st.rows ++ [r], st.next_id + 1, st.clock⟩) := by
  simp only [Store.upsert, hfind, hmk]

theorem delete_eq_missing {st : Store} {uid : ℤ} {date : DateInput}
    (hfind : st.rows.find? (keyMatch uid (normalizeDate date)) = none) :
    st.delete uid date = (false, st) := by
  simp only [Store.delete, hfind]

theorem delete_eq_found {st : Store} {uid : ℤ} {date : DateInput} {rec : Record}
    (hfind : st.rows.find? (keyMatch uid (normalizeDate date)) = some rec) :
    st.delete uid date =
      (true, ⟨st.rows.eraseP (keyMatch uid (normalizeDate date)), st.next_id, st.clock⟩) := by
  simp only [Store.delete, hfind]

theorem uniq_append_new {rows : List Record} {uid day : ℤ} {r : Record}
    (h : rows.Pairwise fun a b => ¬(a.user_id = b.user_id ∧ a.date = b.date))
    (hru : r.user_id = uid) (hrd : r.date = day)
    (hnone : ∀ a ∈ rows, ¬ keyMatch uid day a = true) :
    (rows ++ [r]).Pairwise fun a b => ¬(a.user_id = b.user_id ∧ a.date = b.date) := by
  rw [List.pairwise_append]
  refine ⟨h, List.pairwise_singleton _ _, ?_⟩
  intro a ha b hb
  rcases List.mem_singleton.mp hb with rfl
  intro hcon
  exact hnone a ha (keyMatch_iff.mpr ⟨by rw [hcon.1, hru], by rw [hcon.2, hrd]⟩)

theorem uniq_add (st : Store) (uid : ℤ) (date : DateInput) (f : Fields)
    (h : st.Uniq) : ((st.add uid date f).2).Uniq := by
  cases hex : st.rows.any (keyMatch uid (normalizeDate date)) with
  | true => rw [add_eq_dup f hex]; exact h
  | false =>
    cases hmk : mkRecord st.next_id uid (normalizeDate date) f st.clock with
    | none => rw [add_eq_storage hex hmk]; exact h
    | some r =>
      rw [add_eq_new hex hmk]
      obtain ⟨-, hru, hrd, -⟩ := mkRecord_keys hmk
      refine uniq_append_new h hru hrd ?_
      intro a ha hk
      have : st.rows.any (keyMatch uid (normalizeDate date)) = true :=
        List.any_eq_true.mpr ⟨a, ha, hk⟩
      simp_all

theorem uniq_upsert (st : Store) (uid : ℤ) (date : DateInput) (f : Fields)
    (h : st.Uniq) : ((st.upsert uid date f).2).Uniq := by
  cases hfind : st.rows.find? (keyMatch uid (normalizeDate date)) with
  | some rec =>
    rw [upsert_eq_update f hfind]
    have hkey := keyMatch_iff.mp (List.find?_some hfind)
    have hr : (applyFields f rec).user_id = uid
        ∧ (applyFields f rec).date = normalizeDate date := by
      rw [applyFields_user_id, applyFields_date]
      exact hkey
    exact pairwise_replaceFirst hr h
  | none =>
    cases hmk : mkRecord st.next_id uid (normalizeDate date) f st.clock with
    | none => rw [upsert_eq_storage hfind hmk]; exact h
    | some r =>
      rw [upsert_eq_new hfind hmk]
      obtain ⟨-, hru, hrd, -⟩ := mkRecord_keys hmk
      refine uniq_append_new h hru hrd ?_
      intro a ha hk
      have := List.find?_eq_none.mp hfind a ha
      simp_all

theorem uniq_delete (st : Store) (uid : ℤ) (date : DateInput)
    (h : st.Uniq) : ((st.delete uid date).2).Uniq := by
  cases hfind : st.rows.find? (keyMatch uid (normalizeDate date)) with
  | none => rw [delete_eq_missing hfind]; exact h
  | some rec =>
    rw [delete_eq_found hfind]
    exact h.sublist (st.rows.eraseP_sublist)

theorem uniq_applyOp (st : Store) (op : Op) (h : st.Uniq) : (applyOp st op).Uniq := by
  cases op with
  | add uid date f => exact uniq_add st uid date f h
  | upsert uid date f => exact uniq_upsert st uid date f h
  | del uid date => exact uniq_delete st uid date h

theorem uniq_foldl : ∀ (ops : List Op) (st : Store), st.Uniq →
    (ops.foldl applyOp st).Uniq := by
  intro ops
  induction ops with
  | nil => intro st h; exact h
  | cons op rest ih =>
    intro st h
    exact ih (applyOp st op) (uniq_applyOp st op h)

/-- Claim C2: after any finite sequence of add, upsert and delete calls
starting from the empty store, at most one Record exists for every
(userId, date) pair. -/
theorem C2_uniqueness (ops : List Op) : (run ops).Uniq :=
  uniq_foldl ops Store.empty List.Pairwise.nil

/-! ### Record store: lemmas for upsert and add -/

theorem normalizeDate_day (d : ℤ) : normalizeDate (.day d) = d := rfl

theorem getD_idem {α : Type} (o : Option α) (x : α) : o.getD (o.getD x) = o.getD x := by
  cases o <;> rfl

theorem applyFields_applyFields (f : Fields) (r : Record) :
    applyFields f (applyFields f r) = applyFields f r := by
  simp only [applyFields, getD_idem]

theorem applyFields_mkRecord {id : ℕ} {uid day : ℤ} {f : Fields} {now : ℕ} {r : Record}
    (h : mkRecord id uid day f now = some r) : applyFields f r = r := by
  unfold mkRecord at h
  split at h
  · rename_i vh vso vst vco vsc hh hso hst hco hsc
    cases h
    simp only [applyFields, hh, hso, hst, hco, hsc, Option.getD_some, getD_idem]
  · cases h

theorem replaceFirst_of_find? {p : Record → Bool} :
    ∀ {l : List Record} {r : Record}, l.find? p = some r → replaceFirst p r l = l := by
  intro l
  induction l with
  | nil => intro r h; cases h
  | cons x xs ih =>
    intro r h
    cases hx : p x with
    | true =>
      rw [List.find?_cons_of_pos _ hx] at h
      cases h
      rw [replaceFirst, if_pos hx]
    | false =>
      rw [List.find?_cons_of_neg _ (by simp [hx])] at h
      rw [replaceFirst, if_neg (by simp [hx]), ih h]

theorem find?_replaceFirst {p : Record → Bool} {r : Record} (hr : p r = true) :
    ∀ {l : List Record} {rec : Record}, l.find? p = some rec →
      (replaceFirst p r l).find? p = some r := by
  intro l
  induction l with
  | nil => intro rec h; cases h
  | cons x xs ih =>
    intro rec h
    cases hx : p x with
    | true =>
      rw [replaceFirst, if_pos hx]
      exact List.find?_cons_of_pos _ hr
    | false =>
      rw [List.find?_cons_of_neg _ (by simp [hx])] at h
      rw [replaceFirst, if_neg (by simp [hx]), List.find?_cons_of_neg _ (by simp [hx])]
      exact ih h

theorem mem_replaceFirst_self {p : Record → Bool} {r : Record} :
    ∀ {l : List Record} {rec : Record}, l.find? p = some rec →
      r ∈ replaceFirst p r l := by
  intro l
  induction l with
  | nil => intro rec h; cases h
  | cons x xs ih =>
    intro rec h
    cases hx : p x with
    | true =>
      rw [replaceFirst, if_pos hx]
      exact List.mem_cons_self r xs
    | false =>
      rw [List.find?_cons_of_neg _ (by simp [hx])] at h
      rw [replaceFirst, if_neg (by simp [hx])]
      exact List.mem_cons_of_mem x (ih h)

theorem find?_append_singleton {p : Record → Bool} {r : Record} (hr : p r = true) :
    ∀ {l : List Record}, l.find? p = none → (l ++ [r]).find? p = some r := by
  intro l
  induction l with
  | nil =>
    intro _
    rw [List.nil_append]
    exact List.find?_cons_of_pos _ hr
  | cons x xs ih =>
    intro h
    have hx : ¬ p x = true := (List.find?_eq_none.mp h) x (List.mem_cons_self x xs)
    have hxs : xs.find? p = none :=
      List.find?_eq_none.mpr fun y hy => (List.find?_eq_none.mp h) y (List.mem_cons_of_mem x hy)
    rw [List.cons_append, List.find?_cons_of_neg _ hx, ih hxs]

theorem countP_keyMatch_le_one {uid day : ℤ} :
    ∀ {l : List Record},
      (l.Pairwise fun a b => ¬(a.user_id = b.user_id ∧ a.date = b.date)) →
      l.countP (keyMatch uid day) ≤ 1 := by
  intro l
  induction l with
  | nil => intro _; simp [List.countP_nil]
  | cons x xs ih =>
    intro hp
    obtain ⟨hx, hxs⟩ := List.pairwise_cons.mp hp
    cases hmatch : keyMatch uid day x with
    | true =>
      rw [List.countP_cons_of_pos _ _ hmatch]
      have hz : xs.countP (keyMatch uid day) = 0 := by
        rw [List.countP_eq_zero]
        intro y hy hky
        obtain ⟨hxu, hxd⟩ := keyMatch_iff.mp hmatch
        obtain ⟨hyu, hyd⟩ := keyMatch_iff.mp hky
        exact hx y hy ⟨by rw [hxu, hyu], by rw [hxd, hyd]⟩
      omega
    | false =>
      rw [List.countP_cons_of_neg _ _ (by simp [hmatch])]
      exact Nat.le_trans (ih hxs) (le_refl 1)

theorem countP_eq_one_of_mem {uid day : ℤ} {l : List Record} {r : Record}
    (hu : l.Pairwise fun a b => ¬(a.user_id = b.user_id ∧ a.date = b.date))
    (hmem : r ∈ l) (hr : keyMatch uid day r = true) :
    l.countP (keyMatch uid day) = 1 := by
  have hpos : 0 < l.countP (keyMatch uid day) :=
    List.countP_pos_iff.mpr ⟨r, hmem, hr⟩
  have hle := @countP_keyMatch_le_one uid day l hu
  omega

/-! ### Claim theorems for the record store writes -/

/-- Claim C4: for a (userId, date) pair that already has a Record, `add`
fails with the duplicate error and the store is unchanged (the session
rolls back before anything is written); for a pair with no existing Record
and complete fields, `add` creates exactly one new row for that pair. -/
theorem C4_add_duplicate (st : Store) (uid day : ℤ) (f : Fields) :
    ((∃ rec ∈ st.rows, keyMatch uid day rec = true) →
      st.add uid (.day day) f = (.error .dup, st)) ∧
    ((∀ rec ∈ st.rows, ¬ keyMatch uid day rec = true) → f.complete →
      ∃ r, st.add uid (.day day) f
          = (.ok r, ⟨st.rows ++ [r], st.next_id + 1, st.clock⟩)
        ∧ r.user_id = uid ∧ r.date = day) := by
  constructor
  · rintro ⟨rec, hmem, hk⟩
    exact add_eq_dup f (List.any_eq_true.mpr ⟨rec, hmem, hk⟩)
  · intro hnone hf
    obtain ⟨r, hmk⟩ := @mkRecord_complete st.next_id uid day f st.clock hf
    have hex : st.rows.any (keyMatch uid day) = false := by
      rw [List.any_eq_false]
      exact hnone
    obtain ⟨-, hru, hrd, -⟩ := mkRecord_keys hmk
    exact ⟨r, add_eq_new hex hmk, hru, hrd⟩

/-- Claim C3: when a Record exists for the pair, `upsert` assigns the
supplied fields on that row in place and keeps its id; otherwise it inserts
a new row; and two consecutive `upsert` calls with identical arguments
return the same record, leave the row list of the first call unchanged, and
leave exactly one row for the pair, holding the supplied values. -/
theorem C3_upsert_idempotent (st : Store) (uid day : ℤ) (f : Fields)
    (hu : st.Uniq) (hf : f.complete) :
    (∀ rec, st.rows.find? (keyMatch uid day) = some rec →
      st.upsert uid (.day day) f
        = (.ok (applyFields f rec),
           ⟨replaceFirst (keyMatch uid day) (applyFields f rec) st.rows,
            st.next_id, st.clock⟩)
      ∧ (applyFields f rec).id = rec.id) ∧
    (st.rows.find? (keyMatch uid day) = none →
      ∃ r, st.upsert uid (.day day) f
          = (.ok r, ⟨st.rows ++ [r], st.next_id + 1, st.clock⟩) ∧ r.id = st.next_id) ∧
    (∃ r1 st1 r2 st2,
      st.upsert uid (.day day) f = (.ok r1, st1) ∧
      st1.upsert uid (.day day) f = (.ok r2, st2) ∧
      r2 = r1 ∧ applyFields f r2 = r2 ∧ r2 ∈ st2.rows ∧
      st2.rows.countP (keyMatch uid day) = 1 ∧ st2.rows = st1.rows) := by
  refine ⟨?_, ?_, ?_⟩
  · intro rec hfind
    exact ⟨@upsert_eq_update st uid (.day day) f rec hfind, applyFields_id f rec⟩
  · intro hfind
    obtain ⟨r, hmk⟩ := @mkRecord_complete st.next_id uid day f st.clock hf
    exact ⟨r, @upsert_eq_new st uid (.day day) f r hfind hmk, (mkRecord_keys hmk).1⟩
  · cases hfind : st.rows.find? (keyMatch uid day) with
    | some rec =>
      have h1 := @upsert_eq_update st uid (.day day) f rec hfind
      have hk1 : keyMatch uid day (applyFields f rec) = true := by
        rw [keyMatch_iff, applyFields_user_id, applyFields_date]
        exact keyMatch_iff.mp (List.find?_some hfind)
      have hfind1 :
          (replaceFirst (keyMatch uid day) (applyFields f rec) st.rows).find?
            (keyMatch uid day) = some (applyFields f rec) :=
        find?_replaceFirst hk1 hfind
      have h2 := @upsert_eq_update ⟨replaceFirst (keyMatch uid day)
        (applyFields f rec) st.rows, st.next_id, st.clock⟩ uid (.day day) f
        (applyFields f rec) hfind1
      rw [applyFields_applyFields] at h2
      have hsame := replaceFirst_of_find? hfind1
      have hmem : applyFields f rec
          ∈ replaceFirst (keyMatch uid day) (applyFields f rec) st.rows :=
        mem_replaceFirst_self hfind
      have huniq1 : (Store.mk (replaceFirst (keyMatch uid day)
          (applyFields f rec) st.rows) st.next_id st.clock).Uniq := by
        have := uniq_upsert st uid (.day day) f hu
        rw [h1] at this
        exact this
      refine ⟨applyFields f rec, _, applyFields f rec, _, h1, h2, rfl,
        applyFields_applyFields f rec, ?_, ?_, ?_⟩
      · show applyFields f rec ∈ replaceFirst (keyMatch uid day)
          (applyFields f rec) (replaceFirst (keyMatch uid day) (applyFields f rec) st.rows)
        rw [hsame]
        exact hmem
      · show (replaceFirst (keyMatch uid day) (applyFields f rec)
            (replaceFirst (keyMatch uid day) (applyFields f rec) st.rows)).countP
            (keyMatch uid day) = 1
        rw [hsame]
        exact countP_eq_one_of_mem huniq1 hmem hk1
      · show replaceFirst (keyMatch uid day) (applyFields f rec)
            (replaceFirst (keyMatch uid day) (applyFields f rec) st.rows)
          = replaceFirst (keyMatch uid day) (applyFields f rec) st.rows
        rw [hsame]
    | none =>
      obtain ⟨r, hmk⟩ := @mkRecord_complete st.next_id uid day f st.clock hf
      have h1 := @upsert_eq_new st uid (.day day) f r hfind hmk
      have hk : keyMatch uid day r = true := by
        rw [keyMatch_iff]
        exact ⟨(mkRecord_keys hmk).2.1, (mkRecord_keys hmk).2.2.1⟩
      have hfind1 : (st.rows ++ [r]).find? (keyMatch uid day) = some r :=
        find?_append_singleton hk hfind
      have h2 := @upsert_eq_update ⟨st.rows ++ [r], st.next_id + 1, st.clock⟩ uid
        (.day day) f r hfind1
      rw [applyFields_mkRecord hmk] at h2
      have hsame := replaceFirst_of_find? hfind1
      have hmem : r ∈ st.rows ++ [r] :=
        List.mem_append_right _ (List.mem_singleton.mpr rfl)
      have huniq1 : (Store.mk (st.rows ++ [r]) (st.next_id + 1) st.clock).Uniq := by
        have := uniq_upsert st uid (.day day) f hu
        rw [h1] at this
        exact this
      refine ⟨r, _, r, _, h1, h2, rfl, applyFields_mkRecord hmk, ?_, ?_, ?_⟩
      · show r ∈ replaceFirst (keyMatch uid day) r (st.rows ++ [r])
        rw [hsame]
        exact hmem
      · show (replaceFirst (keyMatch uid day) r (st.rows ++ [r])).countP
            (keyMatch uid day) = 1
        rw [hsame]
        exact countP_eq_one_of_mem huniq1 hmem hk
      · show replaceFirst (keyMatch uid day) r (st.rows ++ [r]) = st.rows ++ [r]
        rw [hsame]

/-- Claim C9: when `upsert` finds an existing Record for the pair, it
assigns exactly the columns present in the supplied fields mapping on that
row; `id`, `user_id`, `date`, `created_at` and every omitted column keep
their previous stored values. -/
theorem C9_upsert_frame (st : Store) (uid day : ℤ) (f : Fields) (rec : Record)
    (hfind : st.rows.find? (keyMatch uid day) = some rec) :
    ∃ r, st.upsert uid (.day day) f
        = (.ok r, ⟨replaceFirst (keyMatch uid day) r st.rows, st.next_id, st.clock⟩) ∧
      r.id = rec.id ∧ r.user_id = rec.user_id ∧ r.date = rec.date ∧
      r.created_at = rec.created_at ∧
      (f.humeur = none → r.humeur = rec.humeur) ∧
      (f.sommeil = none → r.sommeil = rec.sommeil) ∧
      (f.stress = none → r.stress = rec.stress) ∧
      (f.concentration = none → r.concentration = rec.concentration) ∧
      (f.scj = none → r.scj = rec.scj) ∧
      (f.interp = none → r.interp = rec.interp) ∧
      (∀ v, f.humeur = some v → r.humeur = v) ∧
      (∀ v, f.sommeil = some v → r.sommeil = v) ∧
      (∀ v, f.stress = some v → r.stress = v) ∧
      (∀ v, f.concentration = some v → r.concentration = v) ∧
      (∀ v, f.scj = some v → r.scj = v) ∧
      (∀ v, f.interp = some v → r.interp = v) := by
  refine ⟨applyFields f rec, @upsert_eq_update st uid (.day day) f rec hfind, rfl, rfl, rfl, rfl,
    ?_, ?_, ?_, ?_, ?_, ?_, ?_, ?_, ?_, ?_, ?_, ?_⟩
  all_goals first
    | (intro h; simp [applyFields, h])
    | (intro v h; simp [applyFields, h])

/-! Concrete data for the store witnesses. -/

def sampleRecord : Record := ⟨1, 1, 50, 6, 7, 3, 6, 5, none, 0⟩

def sampleStore : Store := ⟨[sampleRecord], 2, 0⟩

def sampleFields : Fields := ⟨some 6, some 7, some 3, some 6, some 5, none⟩

theorem C4_add_duplicate_witness :
    sampleStore.add 1 (.day 50) sampleFields = (.error .dup, sampleStore) :=
  (C4_add_duplicate sampleStore 1 50 sampleFields).1
    ⟨sampleRecord, by simp [sampleStore], by decide⟩

theorem C3_upsert_idempotent_witness :
    ∃ r1 st1 r2 st2,
      sampleStore.upsert 1 (.day 50) sampleFields = (.ok r1, st1) ∧
      st1.upsert 1 (.day 50) sampleFields = (.ok r2, st2) ∧
      r2 = r1 ∧ applyFields sampleFields r2 = r2 ∧ r2 ∈ st2.rows ∧
      st2.rows.countP (keyMatch 1 50) = 1 ∧ st2.rows = st1.rows :=
  (C3_upsert_idempotent sampleStore 1 50 sampleFields
    (List.pairwise_singleton _ _) (by decide)).2.2

theorem C9_upsert_frame_witness :
    ∃ r, sampleStore.upsert 1 (.day 50) (Fields.mk none none none none (some 9) none)
        = (.ok r, ⟨replaceFirst (keyMatch 1 50) r sampleStore.rows, 2, 0⟩) ∧
      r.id = sampleRecord.id ∧ r.user_id = sampleRecord.user_id ∧
      r.date = sampleRecord.date ∧ r.created_at = sampleRecord.created_at ∧
      ((Fields.mk none none none none (some 9) none : Fields).humeur = none →
        r.humeur = sampleRecord.humeur) := by
  obtain ⟨r, h1, h2, h3, h4, h5, h6, -⟩ :=
    C9_upsert_frame sampleStore 1 50 (Fields.mk none none none none (some 9) none)
      sampleRecord (by decide)
  exact ⟨r, h1, h2, h3, h4, h5, h6⟩

/-! ### Claim theorems for the record store reads -/

/-- The selection of `weekly_avg`: the user's rows in the inclusive window
`[e - 6, e]`. -/
def weekSel (st : Store) (uid e : ℤ) : List Record :=
  st.rows.filter fun r => r.user_id == uid && decide (e - 6 ≤ r.date) && decide (r.date ≤ e)

theorem weekly_avg_eq (st : Store) (uid e today : ℤ) :
    st.weekly_avg uid (some (.day e)) today
      = if (weekSel st uid e).isEmpty then none
        else some (((weekSel st uid e).map Record.scj).sum
          / ((weekSel st uid e).length : ℚ)) := rfl

/-- Fields used by the concrete weekly-average scenarios (metrics as in the
repository's own test suite). -/
def exFields (score : ℚ) : Fields := ⟨some 6, some 7, some 3, some 6, some score, none⟩

/-- Seven consecutive days, scores 1..7, for user 1 (days 94..100). -/
def week1Ops : List Op :=
  [.add 1 (.day 94) (exFields 1), .add 1 (.day 95) (exFields 2),
   .add 1 (.day 96) (exFields 3), .add 1 (.day 97) (exFields 4),
   .add 1 (.day 98) (exFields 5), .add 1 (.day 99) (exFields 6),
   .add 1 (.day 100) (exFields 7)]

/-- Only three days of the window present, scores 5, 7, 9. -/
def week2Ops : List Op :=
  [.add 1 (.day 94) (exFields 5), .add 1 (.day 97) (exFields 7),
   .add 1 (.day 100) (exFields 9)]

theorem run_week1 : run week1Ops = ⟨[⟨1, 1, 94, 6, 7, 3, 6, 1, none, 0⟩,
    ⟨2, 1, 95, 6, 7, 3, 6, 2, none, 0⟩, ⟨3, 1, 96, 6, 7, 3, 6, 3, none, 0⟩,
    ⟨4, 1, 97, 6, 7, 3, 6, 4, none, 0⟩, ⟨5, 1, 98, 6, 7, 3, 6, 5, none, 0⟩,
    ⟨6, 1, 99, 6, 7, 3, 6, 6, none, 0⟩, ⟨7, 1, 100, 6, 7, 3, 6, 7, none, 0⟩],
    8, 0⟩ := by
  rfl

theorem run_week2 : run week2Ops = ⟨[⟨1, 1, 94, 6, 7, 3, 6, 5, none, 0⟩,
    ⟨2, 1, 97, 6, 7, 3, 6, 7, none, 0⟩, ⟨3, 1, 100, 6, 7, 3, 6, 9, none, 0⟩],
    4, 0⟩ := by
  rfl

/-- Claim C7: `weekly_avg` averages the `scj` of exactly the user's records
with date in the inclusive window `[endDate - 6, endDate]` (endDate
defaulting to today); missing days are skipped, and with zero records in
the window the result is `none`, never 0 or NaN.  A full week of scores
1..7 averages to 4 and a week holding only 5, 7, 9 averages to 7. -/
theorem C7_weekly_average (st : Store) (uid e today : ℤ) :
    (∀ r : Record, r ∈ weekSel st uid e ↔
      (r ∈ st.rows ∧ r.user_id = uid ∧ e - 6 ≤ r.date ∧ r.date ≤ e)) ∧
    (weekSel st uid e = [] → st.weekly_avg uid (some (.day e)) today = none) ∧
    (weekSel st uid e ≠ [] →
      st.weekly_avg uid (some (.day e)) today
        = some (((weekSel st uid e).map Record.scj).sum
            / ((weekSel st uid e).length : ℚ))) ∧
    st.weekly_avg uid none today = st.weekly_avg uid (some (.day today)) today ∧
    (run week1Ops).weekly_avg 1 (some (.day 100)) 0 = some 4 ∧
    (run week2Ops).weekly_avg 1 (some (.day 100)) 0 = some 7 ∧
    (run []).weekly_avg 1 (some (.day 100)) 0 = none := by
  refine ⟨?_, ?_, ?_, rfl, ?_, ?_, rfl⟩
  · intro r
    simp [weekSel, List.mem_filter, and_assoc]
  · intro h
    rw [weekly_avg_eq, h]
    rfl
  · intro h
    rw [weekly_avg_eq, if_neg]
    rw [List.isEmpty_iff]
    exact h
  · rw [run_week1, weekly_avg_eq]
    norm_num [weekSel, List.filter]
  · rw [run_week2, weekly_avg_eq]
    norm_num [weekSel, List.filter]

/-- The WHERE clause of `get_range` composed into a single predicate:
user match plus the optional inclusive bounds. -/
def rangePred (uid : ℤ) (a b : Option ℤ) (r : Record) : Bool :=
  (match b with | none => true | some e => decide (r.date ≤ e))
    && ((match a with | none => true | some s => decide (s ≤ r.date))
      && (r.user_id == uid))

theorem get_range_eq (st : Store) (uid : ℤ) (a b : Option ℤ) (asc : Bool) :
    st.get_range uid (a.map .day) (b.map .day) asc
      = (st.rows.filter (rangePred uid a b)).mergeSort (dateLe asc) := by
  cases a <;> cases b <;>
    simp only [Store.get_range, Option.map, normalizeDate, List.filter_filter] <;>
    congr 1

theorem dateLe_trans (asc : Bool) (x y z : Record) (h1 : dateLe asc x y = true)
    (h2 : dateLe asc y z = true) : dateLe asc x z = true := by
  cases asc <;> simp [dateLe] at * <;> omega

theorem dateLe_total (asc : Bool) (x y : Record) :
    (dateLe asc x y || dateLe asc y x) = true := by
  cases asc <;> simp [dateLe] <;> omega

theorem pairwise_date_ne {st : Store} (hu : st.Uniq) (uid : ℤ) (a b : Option ℤ) :
    (st.rows.filter (rangePred uid a b)).Pairwise fun x y => x.date ≠ y.date := by
  have hsub : (st.rows.filter (rangePred uid a b)).Sublist st.rows :=
    List.filter_sublist st.rows
  have hpw := hu.sublist hsub
  refine List.Pairwise.imp_of_mem ?_ hpw
  intro x y hx hy hne heq
  have hxu : x.user_id = uid := by
    have := (List.mem_filter.mp hx).2
    simp only [rangePred, Bool.and_eq_true, beq_iff_eq] at this
    exact this.2.2
  have hyu : y.user_id = uid := by
    have := (List.mem_filter.mp hy).2
    simp only [rangePred, Bool.and_eq_true, beq_iff_eq] at this
    exact this.2.2
  exact hne ⟨by rw [hxu, hyu], heq⟩

/-- Claim C8: `get_range` returns exactly the user's records with
`start ≤ date ≤ end` (a missing bound leaving that side unbounded), sorted
strictly by date per the ascending flag — date ties, impossible under the
uniqueness invariant, would break by id — and returns the empty list when
nothing matches. -/
theorem C8_get_range (st : Store) (uid : ℤ) (a b : Option ℤ) (asc : Bool)
    (hu : st.Uniq) :
    (st.get_range uid (a.map .day) (b.map .day) asc).Perm
        (st.rows.filter (rangePred uid a b)) ∧
    (∀ r : Record, r ∈ st.get_range uid (a.map .day) (b.map .day) asc ↔
      (r ∈ st.rows ∧ r.user_id = uid ∧ (∀ s, a = some s → s ≤ r.date)
        ∧ (∀ e, b = some e → r.date ≤ e))) ∧
    (asc = true → (st.get_range uid (a.map .day) (b.map .day) asc).Pairwise
      fun x y => x.date < y.date ∨ (x.date = y.date ∧ x.id < y.id)) ∧
    (asc = false → (st.get_range uid (a.map .day) (b.map .day) asc).Pairwise
      fun x y => y.date < x.date ∨ (y.date = x.date ∧ x.id < y.id)) ∧
    (st.rows.filter (rangePred uid a b) = [] →
      st.get_range uid (a.map .day) (b.map .day) asc = []) := by
  have hperm : (st.get_range uid (a.map .day) (b.map .day) asc).Perm
      (st.rows.filter (rangePred uid a b)) := by
    rw [get_range_eq]
    exact List.mergeSort_perm _ _
  have hsorted : (st.get_range uid (a.map .day) (b.map .day) asc).Pairwise
      fun x y => dateLe asc x y = true := by
    rw [get_range_eq]
    exact List.sorted_mergeSort (dateLe_trans asc) (dateLe_total asc) _
  have hne : (st.get_range uid (a.map .day) (b.map .day) asc).Pairwise
      fun x y => x.date ≠ y.date := by
    rw [List.Perm.pairwise_iff (fun hxy heq => hxy heq.symm) hperm]
    exact pairwise_date_ne hu uid a b
  refine ⟨hperm, ?_, ?_, ?_, ?_⟩
  · intro r
    rw [hperm.mem_iff, List.mem_filter]
    cases a <;> cases b <;> simp [rangePred, and_assoc] <;> tauto
  · intro hasc
    subst hasc
    refine (hsorted.and hne).imp ?_
    intro x y ⟨hle, hned⟩
    simp only [dateLe, if_true] at hle
    left
    have : x.date ≤ y.date := by simpa using hle
    omega
  · intro hasc
    subst hasc
    refine (hsorted.and hne).imp ?_
    intro x y ⟨hle, hned⟩
    simp only [dateLe, if_false] at hle
    left
    have : y.date ≤ x.date := by simpa using hle
    omega
  · intro h
    exact (h ▸ hperm).eq_nil

theorem C8_get_range_witness :
    (sampleStore.get_range 1 ((some 40).map .day) ((some 60).map .day) true).Perm
      (sampleStore.rows.filter (rangePred 1 (some 40) (some 60))) :=
  (C8_get_range sampleStore 1 (some 40) (some 60) true
    (List.pairwise_singleton _ _)).1

end QuantifyMe
